import Mathlib

/-!
Verification development for the `fbemail` repository (email-scraping
pipeline).  The Python sources are shallowly embedded: strings are
`List Char`, pure functions become Lean functions, the network and the
HTML/robots parsers (external libraries `aiohttp`/`requests`,
`BeautifulSoup`, `urllib.robotparser`) are abstracted as oracle
parameters, and the single-threaded `asyncio` interleaving of one crawl
session is modelled as the equivalent sequential execution (all session
bookkeeping in the code happens atomically between `await` points).
-/

namespace FbEmail

/-! ## Python string primitives -/

/-- Model of Python's regex class `\s` (whitespace) restricted to the
code points `re` matches on `str` inputs: the ASCII whitespace
characters plus the Unicode space separators. -/
def isPySpace (c : Char) : Bool :=
  c == ' ' || c == '\t' || c == '\n' || c == '\r' || c == '\x0b' || c == '\x0c' ||
  c == '\x1c' || c == '\x1d' || c == '\x1e' || c == '\x1f' ||
  c == '\x85' || c == '\xa0' || c == '\u1680' ||
  ('\u2000' ≤ c && c ≤ '\u200a') ||
  c == '\u2028' || c == '\u2029' || c == '\u202f' || c == '\u205f' || c == '\u3000'

/-- Characters removed by `re.sub(r'[\(\)\-\s\.]', '', cleaned)` in
`format_phone_number` (both scraper variants share this code). -/
def isPhoneStripChar (c : Char) : Bool :=
  c == '(' || c == ')' || c == '-' || c == '.' || isPySpace c

/-- Model of Python's substring test `pat in s`. -/
def containsSub (pat : List Char) : List Char → Bool
  | [] => pat.isEmpty
  | x :: xs => pat.isPrefixOf (x :: xs) || containsSub pat xs

/-- Model of Python's `str.replace(pat, '')` (left-to-right removal of
non-overlapping occurrences), fuelled by the input length: each step
consumes at least one character, so `s.length` fuel is exact. -/
def pyRemoveAllGo (pat : List Char) : Nat → List Char → List Char
  | _, [] => []
  | 0, s => s
  | fuel + 1, x :: xs =>
    if pat ≠ [] ∧ pat.isPrefixOf (x :: xs) then
      pyRemoveAllGo pat fuel ((x :: xs).drop pat.length)
    else
      x :: pyRemoveAllGo pat fuel xs

/-- Python `s.replace(pat, '')`. -/
def pyRemoveAll (pat s : List Char) : List Char :=
  pyRemoveAllGo pat s.length s

/-- Model of `cleaned.replace('+1', '')`: remove every (left-to-right,
non-overlapping) occurrence of the two-character pattern `+1`.  This is
the same operation as `pyRemoveAll` specialised to the pattern `+1`,
written by structural recursion so that idempotence lemmas can be proved
by induction. -/
def replP1 : List Char → List Char
  | [] => []
  | [c] => [c]
  | c :: d :: rest =>
    if c = '+' ∧ d = '1' then replP1 rest
    else c :: replP1 (d :: rest)

/-- Model of `re.sub(r'^[^\d]+|[^\d]+$', '', cleaned)`: delete the
leading run and the trailing run of non-digit characters. -/
def stripEndsNonDigit (l : List Char) : List Char :=
  ((l.dropWhile (fun c => !c.isDigit)).reverse.dropWhile (fun c => !c.isDigit)).reverse

/-! ## Phone normalization (`format_phone_number`, identical in
`scraper_async.py` and `get_emails_fb11.py`) -/

/-- A phone cell value: `nan` covers the inputs for which `pd.isna`
returns true (`NaN` and `None`); any other value reaches the code as its
`str()` rendering. -/
inductive PhoneVal where
  | nan : PhoneVal
  | str : List Char → PhoneVal
deriving DecidableEq, Repr

/-- Final step of `format_phone_number`: `+1` is prepended when the
cleaned string is exactly ten digits (`len(cleaned) == 10 and
cleaned.isdigit()`); otherwise the cleaned string passes through. -/
def phoneFinish (c3 : List Char) : List Char :=
  if c3.length = 10 ∧ c3.all Char.isDigit then '+' :: '1' :: c3 else c3

/-- Embedding of `format_phone_number`: return `""` on a missing value;
otherwise remove `()`/`-`/whitespace/`.` characters, remove every `+1`
occurrence, strip non-digit characters from both ends, and prepend `+1`
when exactly ten digits remain. -/
def formatPhone : PhoneVal → List Char
  | .nan => []
  | .str s =>
    phoneFinish (stripEndsNonDigit (replP1 (s.filter (fun c => !isPhoneStripChar c))))

example : formatPhone (.str ("(555) 123-4567".toList)) = "+15551234567".toList := by decide
example : formatPhone (.str ("+1 555.123.4567".toList)) = "+15551234567".toList := by decide
example : formatPhone (.str ("5++115".toList)) = "5+15".toList := by decide
example : formatPhone (.str ("5+15".toList)) = "55".toList := by decide

/-- Number of `+` characters a phone value carries into the cleaning
pipeline (zero for a missing value). -/
def plusCount : PhoneVal → Nat
  | .nan => 0
  | .str s => s.count '+'

/-- Whether a string still contains an occurrence of the pattern `+1`
(the pattern `cleaned.replace('+1','')` removes). -/
def hasP1 : List Char → Bool
  | [] => false
  | [_] => false
  | c :: d :: rest => if c = '+' ∧ d = '1' then true else hasP1 (d :: rest)

theorem mem_replP1 : ∀ {l : List Char}, ∀ a ∈ replP1 l, a ∈ l := by
  intro l
  induction l using replP1.induct with
  | case1 => simp [replP1]
  | case2 c => simp [replP1]
  | case3 c d rest h ih =>
    intro a ha
    rw [replP1, if_pos h] at ha
    exact List.mem_cons_of_mem _ (List.mem_cons_of_mem _ (ih a ha))
  | case4 c d rest h ih =>
    intro a ha
    rw [replP1, if_neg h] at ha
    rcases List.mem_cons.mp ha with rfl | ha
    · exact List.mem_cons_self _ _
    · exact List.mem_cons_of_mem _ (ih a ha)

theorem hasP1_cons_of (x : Char) {l : List Char} (h : hasP1 l = true) :
    hasP1 (x :: l) = true := by
  cases l with
  | nil => simp [hasP1] at h
  | cons e r =>
    rw [hasP1]
    split
    · rfl
    · exact h

theorem hasP1_append_left {m : List Char} (t : List Char) (h : hasP1 m = true) :
    hasP1 (m ++ t) = true := by
  induction m using hasP1.induct with
  | case1 => simp [hasP1] at h
  | case2 c => simp [hasP1] at h
  | case3 c d rest hcd =>
    show hasP1 (c :: d :: (rest ++ t)) = true
    rw [hasP1, if_pos hcd]
  | case4 c d rest hcd ih =>
    rw [hasP1, if_neg hcd] at h
    show hasP1 (c :: d :: (rest ++ t)) = true
    rw [hasP1, if_neg hcd]
    exact ih h

theorem hasP1_append_right (s : List Char) {m : List Char} (h : hasP1 m = true) :
    hasP1 (s ++ m) = true := by
  induction s with
  | nil => exact h
  | cons x s ih => exact hasP1_cons_of x ih

theorem hasP1_infix_false {l m : List Char} (hinf : l <:+: m) (h : hasP1 m = false) :
    hasP1 l = false := by
  obtain ⟨s, t, rfl⟩ := hinf
  cases hP : hasP1 l with
  | false => rfl
  | true =>
    exfalso
    have h2 := hasP1_append_right s (hasP1_append_left t hP)
    rw [← List.append_assoc] at h2
    rw [h2] at h
    exact Bool.noConfusion h

theorem replP1_eq_self : ∀ {l : List Char}, hasP1 l = false → replP1 l = l := by
  intro l
  induction l using replP1.induct with
  | case1 => intro _; rfl
  | case2 c => intro _; rfl
  | case3 c d rest h ih =>
    intro hh
    rw [hasP1, if_pos h] at hh
    exact Bool.noConfusion hh
  | case4 c d rest h ih =>
    intro hh
    rw [hasP1, if_neg h] at hh
    rw [replP1, if_neg h, ih hh]

theorem not_hasP1_of_no_plus {l : List Char} (h : '+' ∉ l) : hasP1 l = false := by
  induction l using hasP1.induct with
  | case1 => rfl
  | case2 c => rfl
  | case3 c d rest hcd =>
    exact absurd (hcd.1 ▸ List.mem_cons_self _ _) h
  | case4 c d rest hcd ih =>
    rw [hasP1, if_neg hcd]
    exact ih (fun hm => h (List.mem_cons_of_mem _ hm))

theorem replP1_no_plus {l : List Char} (h : '+' ∉ l) : replP1 l = l :=
  replP1_eq_self (not_hasP1_of_no_plus h)

theorem hasP1_replP1_of_count {l : List Char} (h : l.count '+' ≤ 1) :
    hasP1 (replP1 l) = false := by
  induction l using replP1.induct with
  | case1 => rfl
  | case2 c => rw [replP1]; cases hc : hasP1 [c] with
    | true => rw [hasP1] at hc; exact Bool.noConfusion hc
    | false => rfl
  | case3 c d rest hcd ih =>
    obtain ⟨rfl, rfl⟩ := hcd
    rw [replP1, if_pos ⟨rfl, rfl⟩]
    rw [List.count_cons_self, List.count_cons_of_ne (by decide)] at h
    have hnp : '+' ∉ rest := List.count_eq_zero.mp (by omega)
    rw [replP1_no_plus hnp]
    exact not_hasP1_of_no_plus hnp
  | case4 c d rest hcd ih =>
    have hdr : (d :: rest).count '+' ≤ 1 :=
      le_trans (List.Sublist.count_le (List.sublist_cons_self c (d :: rest)) '+') h
    have hX := ih hdr
    rw [replP1, if_neg hcd]
    by_cases hc : c = '+'
    · subst hc
      have hd1 : d ≠ '1' := fun hd => hcd ⟨rfl, hd⟩
      rw [List.count_cons_self] at h
      have hnp : '+' ∉ d :: rest := List.count_eq_zero.mp (by omega)
      rw [replP1_no_plus hnp, hasP1, if_neg (fun hp => hd1 hp.2)]
      exact not_hasP1_of_no_plus hnp
    · cases hX2 : replP1 (d :: rest) with
      | nil => rfl
      | cons e r =>
        rw [hX2] at hX
        rw [hasP1, if_neg (fun hp => hc hp.1)]
        exact hX

/-! Facts about `stripEndsNonDigit` (the leading/trailing non-digit
strip): its result is an infix of its input and the operation is
idempotent. -/

theorem dropWhile_head_or_nil (p : Char → Bool) (l : List Char) :
    l.dropWhile p = [] ∨ ∃ a t, l.dropWhile p = a :: t ∧ p a = false := by
  induction l with
  | nil => exact Or.inl rfl
  | cons x xs ih =>
    rw [List.dropWhile_cons]
    split
    · exact ih
    · rename_i hx
      exact Or.inr ⟨x, xs, rfl, by simpa using hx⟩

theorem dropWhile_eq_self_of_head? {p : Char → Bool} {l : List Char} {a : Char}
    (h : l.head? = some a) (ha : p a = false) : l.dropWhile p = l := by
  cases l with
  | nil => exact absurd h (by simp)
  | cons x xs =>
    simp only [List.head?_cons, Option.some.injEq] at h
    rw [List.dropWhile_cons, if_neg (by simp [h, ha])]

theorem getLast?_of_suffix {l m : List Char} (h : l <:+ m) (hne : l ≠ []) :
    l.getLast? = m.getLast? := by
  obtain ⟨s, rfl⟩ := h
  exact (List.getLast?_append_of_ne_nil s hne).symm

theorem stripEndsNonDigit_infix_self (l : List Char) : stripEndsNonDigit l <:+: l := by
  unfold stripEndsNonDigit
  have h1 : l.dropWhile (fun c => !c.isDigit) <:+ l := List.dropWhile_suffix _
  have h3 : (l.dropWhile (fun c => !c.isDigit)).reverse.dropWhile (fun c => !c.isDigit) <:+
      (l.dropWhile (fun c => !c.isDigit)).reverse := List.dropWhile_suffix _
  have h3' : ((l.dropWhile (fun c => !c.isDigit)).reverse.dropWhile
      (fun c => !c.isDigit)).reverse.reverse <:+ (l.dropWhile (fun c => !c.isDigit)).reverse := by
    rwa [List.reverse_reverse]
  have h4 := List.reverse_suffix.mp h3'
  obtain ⟨t, ht⟩ := h4
  obtain ⟨s, hs⟩ := h1
  exact ⟨s, t, by rw [List.append_assoc, ht, hs]⟩

theorem stripEndsNonDigit_idem (l : List Char) :
    stripEndsNonDigit (stripEndsNonDigit l) = stripEndsNonDigit l := by
  unfold stripEndsNonDigit
  set q : Char → Bool := fun c => !c.isDigit with hq
  set m := l.dropWhile q with hm
  set X := m.reverse.dropWhile q with hX
  -- First application of the second round is the identity: the head of
  -- `X.reverse` is the head of `m`, a digit.
  have hAr : X.reverse.dropWhile q = X.reverse := by
    rcases dropWhile_head_or_nil q m.reverse with hXnil | ⟨b, tb, hXc, hbq⟩
    · rw [← hX] at hXnil
      rw [hXnil]
      rfl
    · rw [← hX] at hXc
      have hXne : X ≠ [] := by rw [hXc]; exact List.cons_ne_nil b tb
      rcases dropWhile_head_or_nil q l with hmnil | ⟨a, ta, hmc, haq⟩
      · rw [← hm] at hmnil
        exfalso
        apply hXne
        rw [hX, hmnil]
        rfl
      · rw [← hm] at hmc
        have hr : X.reverse.head? = some a := by
          rw [List.head?_reverse, getLast?_of_suffix (hX ▸ List.dropWhile_suffix q) hXne,
            List.getLast?_reverse, hmc]
          rfl
        exact dropWhile_eq_self_of_head? hr haq
  rw [hAr, List.reverse_reverse, hX, List.dropWhile_idempotent]

/-- Claim C8, counterexample: `format_phone_number` is not idempotent.
On input `5++115` the replace-all of `+1` creates a fresh `+1`
occurrence: the first application returns `5+15`, the second `55`. -/
theorem c8_counterexample :
    formatPhone (.str (formatPhone (.str ("5++115".toList)))) ≠
      formatPhone (.str ("5++115".toList)) := by decide

/-- Claim C8 (amended): phone normalization is idempotent for every
input containing at most one `+` character (equivalently, whenever the
removal of `+1` occurrences cannot create a fresh `+1` occurrence):
`format_phone_number(format_phone_number(p)) = format_phone_number(p)`. -/
theorem c8_phone_idempotent_amended (p : PhoneVal) (h : plusCount p ≤ 1) :
    formatPhone (.str (formatPhone p)) = formatPhone p := by
  cases p with
  | nan => rfl
  | str s =>
    rw [plusCount] at h
    show formatPhone (.str (phoneFinish (stripEndsNonDigit (replP1
      (s.filter (fun c => !isPhoneStripChar c)))))) = _
    set c1 := s.filter (fun c => !isPhoneStripChar c) with hc1
    set c2 := replP1 c1 with hc2
    set c3 := stripEndsNonDigit c2 with hc3
    rw [show formatPhone (.str s) = phoneFinish c3 from rfl]
    have hsubset : ∀ a ∈ c3, a ∈ c1 := fun a ha =>
      mem_replP1 a ((stripEndsNonDigit_infix_self c2).sublist.subset ha)
    have hnostrip : ∀ a ∈ c3, isPhoneStripChar a = false := by
      intro a ha
      have := List.mem_filter.mp (hsubset a ha)
      simpa using this.2
    have hcount : c1.count '+' ≤ 1 :=
      le_trans (List.Sublist.count_le (List.filter_sublist s) '+') h
    have hc3P1 : hasP1 c3 = false :=
      hasP1_infix_false (stripEndsNonDigit_infix_self c2) (hasP1_replP1_of_count hcount)
    have hstrip3 : stripEndsNonDigit c3 = c3 := stripEndsNonDigit_idem c2
    by_cases hcond : c3.length = 10 ∧ c3.all Char.isDigit
    · rw [phoneFinish, if_pos hcond]
      show formatPhone (.str ('+' :: '1' :: c3)) = _
      have hfilter : ('+' :: '1' :: c3).filter (fun c => !isPhoneStripChar c) =
          '+' :: '1' :: c3 := by
        refine List.filter_eq_self.mpr ?_
        intro a ha
        rcases List.mem_cons.mp ha with rfl | ha
        · decide
        · rcases List.mem_cons.mp ha with rfl | ha
          · decide
          · simp [hnostrip a ha]
      have hnoplus : '+' ∉ c3 := by
        intro hmem
        have := List.all_eq_true.mp hcond.2 '+' hmem
        exact Bool.noConfusion this
      show phoneFinish (stripEndsNonDigit (replP1 (('+' :: '1' :: c3).filter
        (fun c => !isPhoneStripChar c)))) = _
      rw [hfilter, replP1, if_pos ⟨rfl, rfl⟩, replP1_no_plus hnoplus, hstrip3,
        phoneFinish, if_pos hcond]
    · rw [phoneFinish, if_neg hcond]
      show formatPhone (.str c3) = _
      have hfilter : c3.filter (fun c => !isPhoneStripChar c) = c3 := by
        refine List.filter_eq_self.mpr ?_
        intro a ha
        simp [hnostrip a ha]
      show phoneFinish (stripEndsNonDigit (replP1 (c3.filter
        (fun c => !isPhoneStripChar c)))) = _
      rw [hfilter, replP1_eq_self hc3P1, hstrip3, phoneFinish, if_neg hcond]

/-- Witness for C8 (amended) at a concrete input with one `+`. -/
theorem c8_witness :
    plusCount (.str ("+1 (555) 123-4567".toList)) ≤ 1 ∧
      formatPhone (.str (formatPhone (.str ("+1 (555) 123-4567".toList)))) =
        formatPhone (.str ("+1 (555) 123-4567".toList)) :=
  ⟨by decide, c8_phone_idempotent_amended (.str ("+1 (555) 123-4567".toList)) (by decide)⟩

/-! ## URL parsing

Models of the `urllib.parse` behaviour the code relies on, restricted to
the URL shapes in scope (an explicit `http://`/`https://` scheme or no
scheme at all).  `urlparse` yields an empty `netloc` for a scheme-less
URL such as `facebook.com` — the whole string is parsed as a path. -/

/-- Model of `urlparse(url).netloc`: the host part is present only when
an explicit scheme is followed by `//`; it extends to the next
`/`, `?` or `#`. -/
def netlocOf (url : List Char) : List Char :=
  if ("http://".toList).isPrefixOf url then
    (url.drop 7).takeWhile (fun c => !(c == '/' || c == '?' || c == '#'))
  else if ("https://".toList).isPrefixOf url then
    (url.drop 8).takeWhile (fun c => !(c == '/' || c == '?' || c == '#'))
  else []

/-- Model of `get_domain` (both variants):
`urlparse(url).netloc.lower().replace('www.', '')`. -/
def getDomain (url : List Char) : List Char :=
  pyRemoveAll ("www.".toList) ((netlocOf url).map Char.toLower)

/-- Model of `urlparse(url).path` (lowercased by the caller), for the
URL shapes in scope. -/
def pathOf (url : List Char) : List Char :=
  if ("http://".toList).isPrefixOf url then
    ((url.drop 7).drop (netlocOf url).length).takeWhile (fun c => !(c == '?' || c == '#'))
  else if ("https://".toList).isPrefixOf url then
    ((url.drop 8).drop (netlocOf url).length).takeWhile (fun c => !(c == '?' || c == '#'))
  else url.takeWhile (fun c => !(c == '?' || c == '#'))

/-- The `blocked_domains` list of `AsyncEmailScraper` (`scraper_async.py`). -/
def blockedAsync : List (List Char) :=
  ["estatesales.net", "estatesales.org", "godaddy.com",
   "hibid.com", "bluemoonestatesales.com", "galleryauctions.com",
   "facebook.com", "twitter.com", "linkedin.com", "instagram.com"].map String.toList

/-- `AsyncEmailScraper.is_blocked_domain`: substring-tolerant match of a
blocked name against the normalized host (`any(blocked in domain ...)`).
The `pd.isna`/non-`str` guard is handled by the callers in this model
(string inputs only reach this point). -/
def isBlockedAsync (url : List Char) : Bool :=
  blockedAsync.any (fun b => containsSub b (getDomain url))

/-- The `blocked_domains` list of `EmailScraper` (`get_emails_fb11.py`). -/
def blockedFb11 : List (List Char) :=
  ["estatesales.net", "estatesales.org", "godaddy.com",
   "hibid.com", "bluemoonestatesales.com", "galleryauctions.com"].map String.toList

/-- `EmailScraper.is_blocked_domain`: exact membership of the normalized
host in the list (`domain in self.blocked_domains`). -/
def isBlockedFb11 (url : List Char) : Bool :=
  blockedFb11.contains (getDomain url)

/-- URL normalization used by `scrape_website`/`fetch_url`: prepend
`https://` when no scheme is present. -/
def normalizeUrl (url : List Char) : List Char :=
  if ("http://".toList).isPrefixOf url || ("https://".toList).isPrefixOf url then url
  else ("https://".toList) ++ url

/-- Extensions from `should_skip_url` (`get_emails_fb11.py`). -/
def skipExts : List (List Char) :=
  [".jpg", ".jpeg", ".png", ".gif", ".pdf", ".doc", ".docx",
   ".xlsx", ".xls", ".zip", ".rar", ".mp4", ".avi", ".mov"].map String.toList

/-- `should_skip_url`: the lowercased path ends in a binary/media
extension. -/
def shouldSkipUrl (url : List Char) : Bool :=
  skipExts.any (fun e => e.isSuffixOf ((pathOf url).map Char.toLower))

example : getDomain ("https://www.Foo.com/about".toList) = "foo.com".toList := by decide
example : getDomain ("facebook.com".toList) = [] := by decide
example : isBlockedAsync ("https://facebook.com".toList) = true := by decide
example : isBlockedAsync ("facebook.com".toList) = false := by decide

/-! ## Email extraction

Models of `re.findall` for the two email regexes in the code.  The
character classes are those of the patterns; `re.findall` scans left to
right, emitting non-overlapping matches and resuming after each match.
-/

/-- Class `[a-zA-Z0-9._%+-]` (the local part). -/
def isLocalChar (c : Char) : Bool :=
  c.isAlpha || c.isDigit || c == '.' || c == '_' || c == '%' || c == '+' || c == '-'

/-- Class `[a-zA-Z0-9.-]` (the domain part). -/
def isDomChar (c : Char) : Bool :=
  c.isAlpha || c.isDigit || c == '.' || c == '-'

/-- Word characters for `\b` (regex `\w` over the ASCII range). -/
def isWordChar (c : Char) : Bool :=
  c.isAlpha || c.isDigit || c == '_'

/-- Class `[A-Z|a-z]` of the async pattern's TLD part — note it contains
a literal `|`. -/
def isTldA (c : Char) : Bool :=
  c.isAlpha || c == '|'

/-- Locate the last `.` of a domain-character run that is followed by at
least two alphabetic characters; returns the run prefix before that dot
and the greedy alphabetic TLD after it.  This realizes the backtracking
of `[a-zA-Z0-9.-]+\.[a-zA-Z]{2,}`: the `+` is greedy, so the rightmost
feasible dot wins, and the TLD is the maximal alphabetic run. -/
def splitLastDot : List Char → Option (List Char × List Char)
  | [] => none
  | c :: rest =>
    match splitLastDot rest with
    | some (d, t) => some (c :: d, t)
    | none =>
      if c = '.' then
        let t := rest.takeWhile Char.isAlpha
        if 2 ≤ t.length then some ([], t) else none
      else none

/-- One match attempt of the `get_emails_fb11.py` pattern
`[a-zA-Z0-9._%+-]+@[a-zA-Z0-9.-]+\\.[a-zA-Z]{2,}` at the head of `s`:
returns the matched email and the unconsumed remainder. -/
def matchFb11At (s : List Char) : Option (List Char × List Char) :=
  if (s.takeWhile isLocalChar).isEmpty then none else
  match s.drop (s.takeWhile isLocalChar).length with
  | '@' :: r2 =>
    match splitLastDot (r2.takeWhile isDomChar) with
    | some (d, t) =>
      if d.isEmpty then none
      else some ((s.takeWhile isLocalChar) ++ '@' :: (d ++ '.' :: t),
        r2.drop (d.length + 1 + t.length))
    | none => none
  | _ => none

/-- `re.findall` for the fb11 email pattern: scan left to right; on a
match, resume after the matched text, else advance one character.
Fuelled by the input length (every step consumes at least one
character, so the fuel is never exhausted). -/
def findallFb11Go : Nat → List Char → List (List Char)
  | 0, _ => []
  | _, [] => []
  | fuel + 1, c :: rest =>
    match matchFb11At (c :: rest) with
    | some (m, rem) => m :: findallFb11Go fuel rem
    | none => findallFb11Go fuel rest

/-- `re.findall(email_pattern, text)` for the fb11 pattern. -/
def findallFb11 (s : List Char) : List (List Char) :=
  findallFb11Go s.length s

example : findallFb11 ("mail noreply@foo.com now".toList) = ["noreply@foo.com".toList] := by
  decide

/-- Word-boundary test after the first `k` characters of `u` (the
trailing `\\b` of the async pattern): a boundary sits between `u[k-1]`
and `u[k]` iff exactly one of them is a word character; at end of input
the boundary holds iff the last character is a word character. -/
def boundaryAfterK (u : List Char) (k : Nat) : Bool :=
  match u.drop (k - 1) with
  | x :: next :: _ => xor (isWordChar x) (isWordChar next)
  | [x] => isWordChar x
  | [] => false

/-- Longest `k' ≤ k` with `2 ≤ k'` and a word boundary after `u[k'-1]`
(the backtracking of `[A-Z|a-z]{2,}\\b`, greedy from the longest). -/
def pickK (u : List Char) : Nat → Option Nat
  | 0 => none
  | k + 1 =>
    if 2 ≤ k + 1 ∧ boundaryAfterK u (k + 1) then some (k + 1) else pickK u k

/-- TLD length chosen by `[A-Z|a-z]{2,}\\b` on the remainder `u`. -/
def pickTldLen (u : List Char) : Option Nat :=
  pickK u (u.takeWhile isTldA).length

/-- Backtracking of `[A-Za-z0-9.-]+\\.[A-Z|a-z]{2,}\\b` over the text
after `@`: the rightmost dot inside the leading domain-character run
that is followed by a TLD admitting a word boundary wins; returns the
run prefix before that dot and the chosen TLD (which, unlike the fb11
TLD, may extend past the domain run via `|` characters). -/
def asyncSplitGo : List Char → Option (List Char × List Char)
  | [] => none
  | c :: rest =>
    if isDomChar c then
      match asyncSplitGo rest with
      | some (d, t) => some (c :: d, t)
      | none =>
        if c = '.' then
          match pickTldLen rest with
          | some k => some ([], rest.take k)
          | none => none
        else none
    else none

/-- One match attempt of the `scraper_async.py` pattern
`\\b[A-Za-z0-9._%+-]+@[A-Za-z0-9.-]+\\.[A-Z|a-z]{2,}\\b` at the head of
`s` (the leading `\\b` is checked by the caller). -/
def matchAsyncAt (s : List Char) : Option (List Char × List Char) :=
  if (s.takeWhile isLocalChar).isEmpty then none else
  match s.drop (s.takeWhile isLocalChar).length with
  | '@' :: r2 =>
    match asyncSplitGo r2 with
    | some (d, t) =>
      if d.isEmpty then none
      else some ((s.takeWhile isLocalChar) ++ '@' :: (d ++ '.' :: t),
        r2.drop (d.length + 1 + t.length))
    | none => none
  | _ => none

/-- `re.findall` for the async email pattern, tracking the previous
character so the leading `\\b` can be decided; fuelled by the input
length. -/
def findallAsyncGo (fuel : Nat) (prev : Option Char) (s : List Char) : List (List Char) :=
  match fuel, s with
  | 0, _ => []
  | _, [] => []
  | fuel + 1, c :: rest =>
    if xor (match prev with | none => false | some p => isWordChar p) (isWordChar c) then
      match matchAsyncAt (c :: rest) with
      | some (m, rem) => m :: findallAsyncGo fuel m.getLast? rem
      | none => findallAsyncGo fuel (some c) rest
    else findallAsyncGo fuel (some c) rest

/-- `re.findall(email_pattern, text)` for the async pattern. -/
def findallAsync (s : List Char) : List (List Char) :=
  findallAsyncGo s.length none s

example : findallAsync ("write to info@acme.co today".toList) = ["info@acme.co".toList] := by
  decide
example : findallAsync ("a@b.co x@y.co".toList) = ["a@b.co".toList, "x@y.co".toList] := by
  decide

/-! ## Email validation and extraction pipelines -/

/-- The `unwanted_patterns` list of `AsyncEmailScraper`. -/
def unwantedAsync : List (List Char) :=
  ["wix", "example", "domain", "sentry", "webp", "jpg", "png", "gif", "svg"].map String.toList

/-- The `invalid_patterns` list inside `is_valid_email`. -/
def invalidAsync : List (List Char) :=
  ["example", "test", "admin@admin", "noreply", "no-reply",
   "webmaster", "postmaster"].map String.toList

/-- Model of `re.match(r'^[a-zA-Z0-9._%+-]+@[a-zA-Z0-9.-]+\\.[a-zA-Z]\x7b2,\x7d$', email)`
succeeding (the anchored shape test in `is_valid_email`; `$` is modelled
as end of string).  The string must be local-part, `@`, a nonempty
domain-character run, a dot, and a final alphabetic run of length at
least two. -/
def anchoredEmailOk (l : List Char) : Bool :=
  if (l.takeWhile isLocalChar).isEmpty then false else
  match l.drop (l.takeWhile isLocalChar).length with
  | '@' :: r2 =>
    match r2.reverse.drop (r2.reverse.takeWhile Char.isAlpha).length with
    | '.' :: dRev =>
      2 ≤ (r2.reverse.takeWhile Char.isAlpha).length && !dRev.isEmpty && dRev.all isDomChar
    | _ => false
  | _ => false

/-- `is_valid_email` (`scraper_async.py`): lowercase the candidate,
require the anchored email shape, and reject it when any noise pattern
or any known non-contact pattern occurs in it. -/
def isValidEmailAsync (e : List Char) : Bool :=
  anchoredEmailOk (e.map Char.toLower) &&
  unwantedAsync.all (fun p => !containsSub p (e.map Char.toLower)) &&
  invalidAsync.all (fun p => !containsSub p (e.map Char.toLower))

/-- `extract_emails_from_text` (`scraper_async.py`): the set of regex
matches that pass `is_valid_email`.  Python's `set` is modelled as a
deduplicated list. -/
def extractAsync (text : List Char) : List (List Char) :=
  ((findallAsync text).dedup).filter isValidEmailAsync

/-- The `unwanted_patterns` list of `EmailScraper` (`get_emails_fb11.py`). -/
def unwantedFb11 : List (List Char) :=
  ["wix", "example", "domain", "sentry", "webp", "jpg", "png"].map String.toList

/-- `extract_emails` (`get_emails_fb11.py`): the set of regex matches
whose lowercase form contains no `unwanted_patterns` entry.  This
variant applies no other filter. -/
def extractFb11 (text : List Char) : List (List Char) :=
  ((findallFb11 text).dedup).filter
    (fun e => !unwantedFb11.any (fun p => containsSub p (e.map Char.toLower)))

example : extractAsync ("mail noreply@foo.com or info@acme.co".toList) =
    ["info@acme.co".toList] := by decide
example : extractFb11 ("mail noreply@foo.com or wix@foo.com".toList) =
    ["noreply@foo.com".toList] := by decide

example : findallFb11 ("-a@b.co".toList) = ["-a@b.co".toList] := by decide
example : findallFb11 ("x a@.com y".toList) = [] := by decide
example : findallFb11 ("a@b.co-x".toList) = ["a@b.co".toList] := by decide
example : findallAsync ("a@b.cd|e f".toList) = ["a@b.cd|e".toList] := by decide
example : findallAsync ("-a@b.co".toList) = ["a@b.co".toList] := by decide

/-- Claim C9, counterexample: the sequential variant's `extract_emails`
does not reject the non-contact local-part patterns — `noreply@foo.com`
is matched, contains `noreply`, and is still returned. -/
theorem c9_counterexample :
    "noreply@foo.com".toList ∈ extractFb11 ("mail noreply@foo.com".toList) ∧
      containsSub ("noreply".toList) (("noreply@foo.com".toList).map Char.toLower) = true := by
  decide

/-- Claim C9 (amended): both extractors return a duplicate-free list of
regex matches; the async variant rejects every match whose lowercase
form contains a noise-list entry or a non-contact pattern, while the
sequential (`get_emails_fb11.py`) variant rejects only the noise-list
entries (non-contact patterns such as `noreply` pass through there). -/
theorem c9_extraction_amended (text : List Char) :
    (extractAsync text).Nodup ∧
    (∀ e ∈ extractAsync text, e ∈ findallAsync text ∧
      ∀ p ∈ unwantedAsync ++ invalidAsync, containsSub p (e.map Char.toLower) = false) ∧
    (extractFb11 text).Nodup ∧
    (∀ e ∈ extractFb11 text, e ∈ findallFb11 text ∧
      ∀ p ∈ unwantedFb11, containsSub p (e.map Char.toLower) = false) := by
  refine ⟨(List.nodup_dedup _).filter _, ?_, (List.nodup_dedup _).filter _, ?_⟩
  · intro e he
    obtain ⟨hd, hv⟩ := List.mem_filter.mp he
    refine ⟨List.mem_dedup.mp hd, ?_⟩
    intro p hp
    simp only [isValidEmailAsync, Bool.and_eq_true, List.all_eq_true] at hv
    rcases List.mem_append.mp hp with hp | hp
    · have := hv.1.2 p hp
      simpa using this
    · have := hv.2 p hp
      simpa using this
  · intro e he
    obtain ⟨hd, hv⟩ := List.mem_filter.mp he
    refine ⟨List.mem_dedup.mp hd, ?_⟩
    intro p hp
    simp only [Bool.not_eq_true', List.any_eq_false] at hv
    simpa using hv p hp

/-- Witness for C9 (amended) at concrete inputs. -/
theorem c9_witness :
    ("info@acme.co".toList ∈ extractAsync ("mail noreply@foo.com or info@acme.co".toList)) ∧
    containsSub ("wix".toList) (("info@acme.co".toList).map Char.toLower) = false ∧
    ("wix@e.co".toList ∈ extractFb11 ("mail wix@e.co".toList) → False) ∧
    containsSub ("sentry".toList) (("hi@e.co".toList).map Char.toLower) = false := by
  refine ⟨by decide, ?_, by decide, ?_⟩
  · exact ((c9_extraction_amended ("mail noreply@foo.com or info@acme.co".toList)).2.1
      ("info@acme.co".toList) (by decide)).2 ("wix".toList) (by decide)
  · exact ((c9_extraction_amended ("mail hi@e.co".toList)).2.2.2
      ("hi@e.co".toList) (by decide)).2 ("sentry".toList) (by decide)

/-! ## The concurrent crawl session (`AsyncEmailScraper.scrape_website`)

The network and the HTML parser are abstracted: a `Web` oracle maps a
URL to `none` (any fetch failure: timeout, non-200 status, transport
error) or to a `Page` holding the raw response text and the absolute
`urljoin`ed targets of its anchor tags (the `BeautifulSoup` +
`urljoin` step, an external library).  Within one frontier depth the
code launches all `scrape_single_page` coroutines and gathers them; all
session bookkeeping (visited set, domain counters) happens atomically
before the first `await` of each coroutine, so the session is modelled
as the equivalent sequential left-to-right execution. -/

/-- Abstraction of one fetched page. -/
structure Page where
  html : List Char
  links : List (List Char)

/-- The network oracle: `none` is a classified fetch failure. -/
def Web : Type := List Char → Option Page

/-- Session state of `AsyncEmailScraper`, plus an instrumentation trace
of fetch attempts `(frontier depth, url)` in issue order. -/
structure CrawlState where
  emails : List (List Char)
  visited : List (List Char)
  budgets : List (List Char × Nat)
  trace : List (Nat × List Char)
deriving DecidableEq, Repr

/-- The session state `scrape_website` starts from. -/
def initCrawl : CrawlState := ⟨[], [], [], []⟩

/-- Python `dict` lookup on the domain-counter mapping. -/
def lookupB (d : List Char) : List (List Char × Nat) → Option Nat
  | [] => none
  | (k, v) :: rest => if k = d then some v else lookupB d rest

/-- Python `dict` assignment on the domain-counter mapping. -/
def setB (d : List Char) (n : Nat) : List (List Char × Nat) → List (List Char × Nat)
  | [] => [(d, n)]
  | (k, v) :: rest => if k = d then (d, n) :: rest else (k, v) :: setB d n rest

/-- Python `set.update`: append the new elements not already present. -/
def unionL (a b : List (List Char)) : List (List Char) :=
  a ++ b.filter (fun x => !a.contains x)

/-- `MAX_URLS_PER_DOMAIN` of `AsyncEmailScraper`. -/
def maxUrlsPerDomain : Nat := 15

/-- Body of `scrape_single_page` after the visited/budget bookkeeping:
record the fetch attempt, and on success collect emails and (when depth
budget remains) the same-domain outbound links not yet visited. -/
def fetchPart (web : Web) (baseUrl : List Char) (remaining depth : Nat)
    (st : CrawlState) (url : List Char) : CrawlState × List (List Char) :=
  let st1 := { st with trace := st.trace ++ [(depth, url)] }
  match web (normalizeUrl url) with
  | none => (st1, [])
  | some pg =>
    let st2 := { st1 with emails := unionL st1.emails (extractAsync pg.html) }
    if 0 < remaining then
      (st2, pg.links.filter
        (fun l => getDomain l == getDomain baseUrl && !st2.visited.contains l))
    else (st2, [])

/-- `scrape_single_page`: skip visited URLs; enforce the per-domain
budget (`>= MAX_URLS_PER_DOMAIN` short-circuits before any fetch);
otherwise count the URL against its domain and fetch. -/
def scrapeSinglePage (web : Web) (baseUrl : List Char) (remaining depth : Nat)
    (st : CrawlState) (url : List Char) : CrawlState × List (List Char) :=
  if st.visited.contains url then (st, [])
  else
    match lookupB (getDomain url) st.budgets with
    | some n =>
      if maxUrlsPerDomain ≤ n then ({ st with visited := url :: st.visited }, [])
      else fetchPart web baseUrl remaining depth
        { st with visited := url :: st.visited,
                  budgets := setB (getDomain url) (n + 1) st.budgets } url
    | none => fetchPart web baseUrl remaining depth
        { st with visited := url :: st.visited,
                  budgets := (getDomain url, 1) :: st.budgets } url

/-- One frontier depth: run `scrape_single_page` for each URL (the
sequentialization of the per-depth `asyncio.gather`), unioning the
returned link sets into the next frontier. -/
def scrapeLevel (web : Web) (baseUrl : List Char) (remaining depth : Nat) :
    CrawlState → List (List Char) → CrawlState × List (List Char)
  | st, [] => (st, [])
  | st, u :: us =>
    let p1 := scrapeSinglePage web baseUrl remaining depth st u
    let p2 := scrapeLevel web baseUrl remaining depth p1.1 us
    (p2.1, unionL p1.2 p2.2)

/-- The `for depth in range(max_depth + 1)` loop of `scrape_website`:
`levels` counts the remaining iterations, `depth` the current index, and
each page at index `depth` runs with link budget `max_depth - depth`
(that is `levels - 1`). -/
def crawlLoop (web : Web) (baseUrl : List Char) :
    Nat → Nat → CrawlState → List (List Char) → CrawlState
  | 0, _, st, _ => st
  | levels + 1, depth, st, frontier =>
    if frontier.isEmpty then st
    else
      let p := scrapeLevel web baseUrl levels depth st frontier
      crawlLoop web baseUrl levels (depth + 1) p.1 p.2

/-- `AsyncEmailScraper.scrape_website`: empty/blocked URLs short-circuit
before any session work; otherwise the URL is scheme-normalized and a
fresh session crawls breadth-first from it.  (The `pd.isna` guard is
handled by the orchestrator model, which only passes strings here.) -/
def scrapeWebsite (web : Web) (url : List Char) (maxDepth : Nat) : CrawlState :=
  if url.isEmpty then initCrawl
  else if isBlockedAsync url then initCrawl
  else crawlLoop web (normalizeUrl url) (maxDepth + 1) 0 initCrawl [normalizeUrl url]

/-- A tiny concrete web used by witnesses: one root page linking to one
subpage carrying an address. -/
def webX : Web := fun u =>
  if u = ("https://a.co".toList) then
    some ⟨"hello".toList, [("https://a.co/c".toList)]⟩
  else if u = ("https://a.co/c".toList) then
    some ⟨"mail info@a.co ok".toList, []⟩
  else none

example : (scrapeWebsite webX ("a.co".toList) 2).emails = ["info@a.co".toList] := by decide
example : (scrapeWebsite webX ("a.co".toList) 2).trace =
    [(0, "https://a.co".toList), (1, "https://a.co/c".toList)] := by decide
example : (scrapeWebsite webX ("a.co".toList) 0).trace = [(0, "https://a.co".toList)] := by
  decide

/-! ## Session invariants: domain budget and frontier depth -/

/-- Number of fetch attempts recorded for domain `d`. -/
def domCount (tr : List (Nat × List Char)) (d : List Char) : Nat :=
  (tr.filter (fun e => getDomain e.2 == d)).length

/-- Current counter of domain `d` (0 when absent, like `dict.get(d, 0)`). -/
def budgetOf (b : List (List Char × Nat)) (d : List Char) : Nat :=
  (lookupB d b).getD 0

/-- The budget invariant: per-domain fetch attempts never exceed the
recorded counter, which never exceeds `MAX_URLS_PER_DOMAIN`. -/
def BudgetInv (st : CrawlState) : Prop :=
  ∀ d, domCount st.trace d ≤ budgetOf st.budgets d ∧
    budgetOf st.budgets d ≤ maxUrlsPerDomain

theorem lookupB_setB_self (d : List Char) (n : Nat) :
    ∀ b, lookupB d (setB d n b) = some n := by
  intro b
  induction b with
  | nil => simp [setB, lookupB]
  | cons kv rest ih =>
    obtain ⟨k, v⟩ := kv
    by_cases hk : k = d
    · simp [setB, hk, lookupB]
    · simp [setB, hk, lookupB, ih]

theorem lookupB_setB_ne {d e : List Char} (h : e ≠ d) (n : Nat) :
    ∀ b, lookupB e (setB d n b) = lookupB e b := by
  intro b
  induction b with
  | nil =>
    rw [setB, lookupB, lookupB, if_neg (fun hh => h hh.symm)]
    rfl
  | cons kv rest ih =>
    obtain ⟨k, v⟩ := kv
    by_cases hk : k = d
    · subst hk
      rw [setB, if_pos rfl, lookupB, lookupB,
        if_neg (fun hh => h hh.symm), if_neg (fun hh => h hh.symm)]
    · rw [setB, if_neg hk, lookupB, lookupB, ih]

theorem domCount_append (tr : List (Nat × List Char)) (dp : Nat) (url d : List Char) :
    domCount (tr ++ [(dp, url)]) d =
      domCount tr d + (if getDomain url = d then 1 else 0) := by
  simp only [domCount, List.filter_append, List.length_append]
  congr 1
  by_cases hd : getDomain url = d
  · simp [hd]
  · simp [hd]

theorem fetchPart_budgets (web : Web) (b : List Char) (r dp : Nat)
    (st : CrawlState) (url : List Char) :
    (fetchPart web b r dp st url).1.budgets = st.budgets := by
  unfold fetchPart
  split
  · rfl
  · dsimp only
    split <;> rfl

theorem fetchPart_trace (web : Web) (b : List Char) (r dp : Nat)
    (st : CrawlState) (url : List Char) :
    (fetchPart web b r dp st url).1.trace = st.trace ++ [(dp, url)] := by
  unfold fetchPart
  split
  · rfl
  · dsimp only
    split <;> rfl

theorem budgetInv_singlePage (web : Web) (b : List Char) (r dp : Nat)
    (st : CrawlState) (url : List Char) (h : BudgetInv st) :
    BudgetInv (scrapeSinglePage web b r dp st url).1 := by
  unfold scrapeSinglePage
  split
  · exact h
  · split
    · rename_i n heq
      split
      · exact fun d => h d
      · rename_i hlt
        intro d
        constructor
        · rw [fetchPart_trace, fetchPart_budgets, domCount_append]
          dsimp only
          by_cases hd : getDomain url = d
          · subst hd
            rw [if_pos rfl]
            have hb : budgetOf st.budgets (getDomain url) = n := by
              rw [budgetOf, heq]
              rfl
            have hc := (h (getDomain url)).1
            rw [hb] at hc
            have : budgetOf (setB (getDomain url) (n + 1) st.budgets) (getDomain url) =
                n + 1 := by
              rw [budgetOf, lookupB_setB_self]
              rfl
            rw [this]
            omega
          · rw [if_neg hd]
            have : budgetOf (setB (getDomain url) (n + 1) st.budgets) d =
                budgetOf st.budgets d := by
              rw [budgetOf, lookupB_setB_ne (fun hh => hd hh.symm)]
              rfl
            rw [this]
            simpa using (h d).1
        · rw [fetchPart_budgets]
          by_cases hd : getDomain url = d
          · subst hd
            have : budgetOf (setB (getDomain url) (n + 1) st.budgets) (getDomain url) =
                n + 1 := by
              rw [budgetOf, lookupB_setB_self]
              rfl
            rw [this]
            rw [maxUrlsPerDomain] at hlt ⊢
            omega
          · have : budgetOf (setB (getDomain url) (n + 1) st.budgets) d =
                budgetOf st.budgets d := by
              rw [budgetOf, lookupB_setB_ne (fun hh => hd hh.symm)]
              rfl
            rw [this]
            exact (h d).2
    · rename_i heq
      intro d
      constructor
      · rw [fetchPart_trace, fetchPart_budgets, domCount_append]
        dsimp only
        by_cases hd : getDomain url = d
        · subst hd
          rw [if_pos rfl]
          have hb : budgetOf st.budgets (getDomain url) = 0 := by
            rw [budgetOf, heq]
            rfl
          have hc := (h (getDomain url)).1
          rw [hb] at hc
          have : budgetOf ((getDomain url, 1) :: st.budgets) (getDomain url) = 1 := by
            rw [budgetOf, lookupB, if_pos rfl]
            rfl
          rw [this]
          omega
        · rw [if_neg hd]
          have : budgetOf ((getDomain url, 1) :: st.budgets) d = budgetOf st.budgets d := by
            rw [budgetOf, lookupB, if_neg (fun hh => hd hh)]
            rfl
          rw [this]
          exact (h d).1
      · rw [fetchPart_budgets]
        by_cases hd : getDomain url = d
        · subst hd
          have : budgetOf ((getDomain url, 1) :: st.budgets) (getDomain url) = 1 := by
            rw [budgetOf, lookupB, if_pos rfl]
            rfl
          rw [this]
          rw [maxUrlsPerDomain]
          omega
        · have : budgetOf ((getDomain url, 1) :: st.budgets) d = budgetOf st.budgets d := by
            rw [budgetOf, lookupB, if_neg (fun hh => hd hh)]
            rfl
          rw [this]
          exact (h d).2

theorem budgetInv_level (web : Web) (b : List Char) (r dp : Nat) :
    ∀ (f : List (List Char)) (st : CrawlState), BudgetInv st →
      BudgetInv (scrapeLevel web b r dp st f).1 := by
  intro f
  induction f with
  | nil => intro st h; exact h
  | cons u us ih =>
    intro st h
    exact ih _ (budgetInv_singlePage web b r dp st u h)

theorem budgetInv_loop (web : Web) (b : List Char) :
    ∀ (levels dp : Nat) (st : CrawlState) (f : List (List Char)), BudgetInv st →
      BudgetInv (crawlLoop web b levels dp st f) := by
  intro levels
  induction levels with
  | zero => intro _ st _ h; exact h
  | succ n ih =>
    intro dp st f h
    rw [crawlLoop]
    split
    · exact h
    · exact ih _ _ _ (budgetInv_level web b n dp f st h)

theorem budgetInv_init : BudgetInv initCrawl := by
  intro d
  constructor <;> simp [initCrawl, domCount, budgetOf, lookupB, maxUrlsPerDomain]

theorem budgetInv_scrapeWebsite (web : Web) (url : List Char) (maxD : Nat) :
    BudgetInv (scrapeWebsite web url maxD) := by
  unfold scrapeWebsite
  split
  · exact budgetInv_init
  · split
    · exact budgetInv_init
    · exact budgetInv_loop web _ _ _ _ _ budgetInv_init

/-- All fetch attempts recorded so far happened at frontier depth at
most `B`. -/
def TraceDepthLe (B : Nat) (st : CrawlState) : Prop :=
  ∀ e ∈ st.trace, e.1 ≤ B

theorem depthLe_singlePage (web : Web) (b : List Char) (r dp B : Nat)
    (st : CrawlState) (url : List Char) (hdp : dp ≤ B) (h : TraceDepthLe B st) :
    TraceDepthLe B (scrapeSinglePage web b r dp st url).1 := by
  unfold scrapeSinglePage
  split
  · exact h
  · split
    · split
      · exact fun e he => h e he
      · intro e he
        rw [fetchPart_trace] at he
        rcases List.mem_append.mp he with he | he
        · exact h e he
        · simp only [List.mem_singleton] at he
          subst he
          exact hdp
    · intro e he
      rw [fetchPart_trace] at he
      rcases List.mem_append.mp he with he | he
      · exact h e he
      · simp only [List.mem_singleton] at he
        subst he
        exact hdp

theorem depthLe_level (web : Web) (b : List Char) (r dp B : Nat) (hdp : dp ≤ B) :
    ∀ (f : List (List Char)) (st : CrawlState), TraceDepthLe B st →
      TraceDepthLe B (scrapeLevel web b r dp st f).1 := by
  intro f
  induction f with
  | nil => intro st h; exact h
  | cons u us ih =>
    intro st h
    exact ih _ (depthLe_singlePage web b r dp B st u hdp h)

theorem depthLe_loop (web : Web) (b : List Char) (B : Nat) :
    ∀ (levels dp : Nat) (st : CrawlState) (f : List (List Char)),
      dp + levels ≤ B + 1 → TraceDepthLe B st →
      TraceDepthLe B (crawlLoop web b levels dp st f) := by
  intro levels
  induction levels with
  | zero => intro _ st _ _ h; exact h
  | succ n ih =>
    intro dp st f hB h
    rw [crawlLoop]
    split
    · exact h
    · exact ih (dp + 1) _ _ (by omega)
        (depthLe_level web b n dp B (by omega) f st h)

theorem depthLe_scrapeWebsite (web : Web) (url : List Char) (maxD : Nat) :
    TraceDepthLe maxD (scrapeWebsite web url maxD) := by
  unfold scrapeWebsite
  split
  · intro e he; exact absurd he (by simp [initCrawl])
  · split
    · intro e he; exact absurd he (by simp [initCrawl])
    · exact depthLe_loop web _ maxD (maxD + 1) 0 initCrawl _ (by omega)
        (fun e he => absurd he (by simp [initCrawl]))

/-! ## The sequential crawl session (`EmailScraper.scrape_page`,
`get_emails_fb11.py`)

`urllib.robotparser` and the robots.txt fetch are abstracted as a
`RobotsOracle`: it maps the robots.txt URL of a domain to `none` when
retrieval/parsing raises (the `except: return True` fail-open path) or
to the parsed `can_fetch` predicate over page URLs.  `requests.get` is
the same `Web` oracle as in the concurrent model (note this variant
issues the request on the raw URL, without scheme normalization). -/

/-- The robots oracle. -/
def RobotsOracle : Type := List Char → Option (List Char → Bool)

/-- The `f"{parsed_url.scheme}://{parsed_url.netloc}/robots.txt"` URL
built by `is_allowed_by_robots`. -/
def robotsUrlOf (url : List Char) : List Char :=
  (if ("http://".toList).isPrefixOf url then "http".toList
   else if ("https://".toList).isPrefixOf url then "https".toList
   else []) ++ "://".toList ++ netlocOf url ++ "/robots.txt".toList

/-- `is_allowed_by_robots`: consult the cached robots.txt; any failure
of the retrieval itself is fail-open (allowed). -/
def isAllowedByRobots (robots : RobotsOracle) (url : List Char) : Bool :=
  match robots (robotsUrlOf url) with
  | none => true
  | some canFetch => canFetch url

/-- `can_scrape_domain`: a URL with no parsed domain is never scraped;
otherwise the domain counter must be below `MAX_URLS_PER_DOMAIN`
(also 15 in this variant). -/
def canScrapeB (budgets : List (List Char × Nat)) (url : List Char) : Bool :=
  if (getDomain url).isEmpty then false
  else (lookupB (getDomain url) budgets).getD 0 < maxUrlsPerDomain

/-- `self.scraped_domains[domain] = self.scraped_domains.get(domain, 0) + 1`,
guarded by `if domain:`. -/
def fbBump (budgets : List (List Char × Nat)) (d : List Char) : List (List Char × Nat) :=
  if d.isEmpty then budgets else setB d ((lookupB d budgets).getD 0 + 1) budgets

/-- `get_internal_links`: walk the `urljoin`ed anchor targets; skip
binary/media extensions; keep same-domain links; stop collecting
(`break`) as soon as a link's domain has no remaining budget. -/
def getInternalLinks (budgets : List (List Char × Nat)) (baseD : List Char) :
    List (List Char) → List (List Char)
  | [] => []
  | u :: us =>
    if shouldSkipUrl u then getInternalLinks budgets baseD us
    else
      (if getDomain u == baseD then [u] else []) ++
      (if canScrapeB budgets u then getInternalLinks budgets baseD us else [])

/-- Session state of `EmailScraper`; `trace` records page fetch
attempts as `(current_depth, url)`. -/
structure FbState where
  emails : List (List Char)
  visited : List (List Char)
  budgets : List (List Char × Nat)
  trace : List (Nat × List Char)
deriving DecidableEq, Repr

/-- Body of `scrape_page` for one URL at depth `cd`: the guards in
source order (visited, blocked/skip/budget, robots), then bookkeeping,
the fetch, extraction, and — when `current_depth < max_depth`
(`recurse` present) and budget remains — recursion into the internal
links.  (The redundant per-link `can_scrape_domain` test at the call
site re-runs inside the callee's own guard.) -/
def fbPageBody (web : Web) (robots : RobotsOracle) (cd : Nat)
    (recurse : Option (FbState → List (List Char) → FbState))
    (st : FbState) (url : List Char) : FbState :=
  if st.visited.contains url then st
  else if isBlockedFb11 url || shouldSkipUrl url || !canScrapeB st.budgets url then st
  else if !isAllowedByRobots robots url then st
  else
    match web url with
    | none =>
      { st with visited := url :: st.visited,
                budgets := fbBump st.budgets (getDomain url),
                trace := st.trace ++ [(cd, url)] }
    | some pg =>
      let st3 : FbState :=
        { st with visited := url :: st.visited,
                  budgets := fbBump st.budgets (getDomain url),
                  trace := st.trace ++ [(cd, url)],
                  emails := unionL st.emails (extractFb11 pg.html) }
      match recurse with
      | none => st3
      | some go =>
        if canScrapeB st3.budgets url then
          go st3 (getInternalLinks st3.budgets (getDomain url) pg.links)
        else st3

/-- Depth-indexed driver of the `scrape_page` recursion: `r` is the
remaining depth (`max_depth - current_depth`); a list of URLs is
processed left to right, exactly like the `for link in internal_links`
loop, and each page at positive remaining depth recurses one level
deeper. -/
def fbLevel (web : Web) (robots : RobotsOracle) :
    Nat → Nat → FbState → List (List Char) → FbState
  | 0, cd, st, urls => urls.foldl (fbPageBody web robots cd none) st
  | r + 1, cd, st, urls =>
    urls.foldl (fbPageBody web robots cd (some (fbLevel web robots r (cd + 1)))) st

/-- `scraper.scrape_page(website, max_depth)` from a fresh session. -/
def fbScrape (web : Web) (robots : RobotsOracle) (maxD : Nat) (url : List Char) : FbState :=
  fbLevel web robots maxD 0 ⟨[], [], [], []⟩ [url]

/-- A permissive robots oracle (every retrieval fails, hence fail-open). -/
def robotsOpen : RobotsOracle := fun _ => none

/-- A robots oracle that forbids everything for every domain. -/
def robotsDeny : RobotsOracle := fun _ => some (fun _ => false)

example : (fbScrape webX robotsOpen 2 ("https://a.co".toList)).trace =
    [(0, "https://a.co".toList), (1, "https://a.co/c".toList)] := by decide
example : (fbScrape webX robotsDeny 2 ("https://a.co".toList)).trace = [] := by decide
example : (fbScrape webX robotsOpen 2 ("https://a.co".toList)).emails =
    ["info@a.co".toList] := by decide

/-! ## Invariants of the sequential session -/

theorem foldl_pres {σ α : Type} {Q : σ → Prop} {f : σ → α → σ}
    (hf : ∀ st u, Q st → Q (f st u)) :
    ∀ (l : List α) (st : σ), Q st → Q (l.foldl f st) := by
  intro l
  induction l with
  | nil => intro st h; exact h
  | cons x xs ih => intro st h; exact ih _ (hf st x h)

/-- Every page fetch recorded in the trace passed the robots check. -/
def RobotsOk (robots : RobotsOracle) (st : FbState) : Prop :=
  ∀ e ∈ st.trace, isAllowedByRobots robots e.2 = true

theorem robotsOk_pageBody (web : Web) (robots : RobotsOracle) (cd : Nat)
    (recurse : Option (FbState → List (List Char) → FbState))
    (hrec : ∀ go ∈ recurse, ∀ st urls, RobotsOk robots st → RobotsOk robots (go st urls)) :
    ∀ st url, RobotsOk robots st → RobotsOk robots (fbPageBody web robots cd recurse st url) := by
  intro st url h
  unfold fbPageBody
  split
  · exact h
  · split
    · exact h
    · split
      · exact h
      · rename_i hrob
        have hallow : isAllowedByRobots robots url = true := by
          rcases hx : isAllowedByRobots robots url with _ | _
          · rw [hx] at hrob
            exact absurd rfl hrob
          · rfl
        have hstep : ∀ e ∈ st.trace ++ [(cd, url)], isAllowedByRobots robots e.2 = true := by
          intro e he
          rcases List.mem_append.mp he with he | he
          · exact h e he
          · simp only [List.mem_singleton] at he
            subst he
            exact hallow
        split
        · exact hstep
        · dsimp only
          split
          · exact hstep
          · rename_i _o go
            split
            · exact hrec go rfl _ _ hstep
            · exact hstep

theorem robotsOk_fbLevel (web : Web) (robots : RobotsOracle) :
    ∀ (r cd : Nat) (st : FbState) (urls : List (List Char)), RobotsOk robots st →
      RobotsOk robots (fbLevel web robots r cd st urls) := by
  intro r
  induction r with
  | zero =>
    intro cd st urls h
    exact foldl_pres (robotsOk_pageBody web robots cd none (by simp)) urls st h
  | succ r ih =>
    intro cd st urls h
    refine foldl_pres (robotsOk_pageBody web robots cd
      (some (fbLevel web robots r (cd + 1))) ?_) urls st h
    intro go hgo st2 urls2 h2
    have hg : fbLevel web robots r (cd + 1) = go := by simpa using hgo
    rw [← hg]
    exact ih (cd + 1) st2 urls2 h2

/-- Budget invariant for the sequential session. -/
def FbBudgetInv (st : FbState) : Prop :=
  ∀ d, domCount st.trace d ≤ budgetOf st.budgets d ∧
    budgetOf st.budgets d ≤ maxUrlsPerDomain

theorem budgetInv_pageBody (web : Web) (robots : RobotsOracle) (cd : Nat)
    (recurse : Option (FbState → List (List Char) → FbState))
    (hrec : ∀ go ∈ recurse, ∀ st urls, FbBudgetInv st → FbBudgetInv (go st urls)) :
    ∀ st url, FbBudgetInv st → FbBudgetInv (fbPageBody web robots cd recurse st url) := by
  intro st url h
  have hbump : canScrapeB st.budgets url = true →
      ∀ d, domCount (st.trace ++ [(cd, url)]) d ≤
          budgetOf (fbBump st.budgets (getDomain url)) d ∧
        budgetOf (fbBump st.budgets (getDomain url)) d ≤ maxUrlsPerDomain := by
    intro hcan d
    rw [canScrapeB] at hcan
    split at hcan
    · exact absurd hcan (by simp)
    · rename_i hne
      have hlt : budgetOf st.budgets (getDomain url) < maxUrlsPerDomain := by
        simpa [budgetOf] using hcan
      rw [domCount_append, fbBump, if_neg hne]
      by_cases hd : getDomain url = d
      · subst hd
        rw [if_pos rfl]
        have hb : budgetOf (setB (getDomain url) ((lookupB (getDomain url)
            st.budgets).getD 0 + 1) st.budgets) (getDomain url) =
            budgetOf st.budgets (getDomain url) + 1 := by
          rw [budgetOf, lookupB_setB_self]
          rfl
        rw [hb]
        have := (h (getDomain url)).1
        omega
      · rw [if_neg hd]
        have hb : budgetOf (setB (getDomain url) ((lookupB (getDomain url)
            st.budgets).getD 0 + 1) st.budgets) d = budgetOf st.budgets d := by
          rw [budgetOf, lookupB_setB_ne (fun hh => hd hh.symm)]
          rfl
        rw [hb]
        exact ⟨by have := (h d).1; omega, (h d).2⟩
  unfold fbPageBody
  split
  · exact h
  · split
    · exact h
    · rename_i hguard
      split
      · exact h
      · have hcan : canScrapeB st.budgets url = true := by
          rcases hx : canScrapeB st.budgets url with _ | _
          · exfalso
            apply hguard
            rw [hx]
            simp
          · rfl
        split
        · intro d
          exact hbump hcan d
        · dsimp only
          split
          · intro d
            exact hbump hcan d
          · rename_i _o go
            split
            · refine hrec go rfl _ _ ?_
              intro d
              exact hbump hcan d
            · intro d
              exact hbump hcan d

theorem budgetInv_fbLevel (web : Web) (robots : RobotsOracle) :
    ∀ (r cd : Nat) (st : FbState) (urls : List (List Char)), FbBudgetInv st →
      FbBudgetInv (fbLevel web robots r cd st urls) := by
  intro r
  induction r with
  | zero =>
    intro cd st urls h
    exact foldl_pres (budgetInv_pageBody web robots cd none (by simp)) urls st h
  | succ r ih =>
    intro cd st urls h
    refine foldl_pres (budgetInv_pageBody web robots cd
      (some (fbLevel web robots r (cd + 1))) ?_) urls st h
    intro go hgo st2 urls2 h2
    have hg : fbLevel web robots r (cd + 1) = go := by simpa using hgo
    rw [← hg]
    exact ih (cd + 1) st2 urls2 h2

/-- Depth bound for the sequential session's trace. -/
def FbDepthLe (B : Nat) (st : FbState) : Prop :=
  ∀ e ∈ st.trace, e.1 ≤ B

theorem depthLe_pageBody (web : Web) (robots : RobotsOracle) {cd B : Nat} (hcd : cd ≤ B)
    (recurse : Option (FbState → List (List Char) → FbState))
    (hrec : ∀ go ∈ recurse, ∀ st urls, FbDepthLe B st → FbDepthLe B (go st urls)) :
    ∀ st url, FbDepthLe B st → FbDepthLe B (fbPageBody web robots cd recurse st url) := by
  intro st url h
  have hstep : ∀ e ∈ st.trace ++ [(cd, url)], (e : Nat × List Char).1 ≤ B := by
    intro e he
    rcases List.mem_append.mp he with he | he
    · exact h e he
    · simp only [List.mem_singleton] at he
      subst he
      exact hcd
  unfold fbPageBody
  split
  · exact h
  · split
    · exact h
    · split
      · exact h
      · split
        · exact hstep
        · dsimp only
          split
          · exact hstep
          · rename_i _o go
            split
            · exact hrec go rfl _ _ hstep
            · exact hstep

theorem depthLe_fbLevel (web : Web) (robots : RobotsOracle) (B : Nat) :
    ∀ (r cd : Nat), cd + r ≤ B →
      ∀ (st : FbState) (urls : List (List Char)), FbDepthLe B st →
        FbDepthLe B (fbLevel web robots r cd st urls) := by
  intro r
  induction r with
  | zero =>
    intro cd hcd st urls h
    exact foldl_pres (depthLe_pageBody web robots (by omega) none (by simp)) urls st h
  | succ r ih =>
    intro cd hcd st urls h
    refine foldl_pres (depthLe_pageBody web robots (by omega)
      (some (fbLevel web robots r (cd + 1))) ?_) urls st h
    intro go hgo st2 urls2 h2
    have hg : fbLevel web robots r (cd + 1) = go := by simpa using hgo
    rw [← hg]
    exact ih (cd + 1) (by omega) st2 urls2 h2

/-- A web oracle on which every fetch fails; the attempt is still
recorded in the trace. -/
def webNone : Web := fun _ => none

/-- Claim C4, counterexample: for the scheme-less input
`facebook.com`, `urlparse` yields an empty host, so
`is_blocked_domain` misses it even though its normalized host is
`facebook.com`, which the BlockList contains — and the session then
issues a network request for it. -/
theorem c4_counterexample :
    getDomain (normalizeUrl ("facebook.com".toList)) = "facebook.com".toList ∧
      ("facebook.com".toList) ∈ blockedAsync ∧
      isBlockedAsync ("facebook.com".toList) = false ∧
      (scrapeWebsite webNone ("facebook.com".toList) 2).trace ≠ [] := by
  refine ⟨by decide, by decide, by decide, ?_⟩
  decide

/-- Claim C4 (amended): for every target URL whose parsed host matches
an entry of the BlockList (in particular every blocked URL carrying an
explicit `http`/`https` scheme), the blocked-domain check fires and the
crawl session issues no network request.  A scheme-less blocked URL
parses to an empty host and bypasses the check. -/
theorem c4_blocked_no_fetch_amended (web : Web) (url : List Char) (maxD : Nat)
    (h : ∃ b ∈ blockedAsync, containsSub b (getDomain url) = true) :
    isBlockedAsync url = true ∧ (scrapeWebsite web url maxD).trace = [] := by
  obtain ⟨b, hb, hc⟩ := h
  have hblk : isBlockedAsync url = true := by
    rw [isBlockedAsync, List.any_eq_true]
    exact ⟨b, hb, hc⟩
  refine ⟨hblk, ?_⟩
  rw [scrapeWebsite]
  by_cases hemp : url.isEmpty = true
  · rw [if_pos hemp]
    rfl
  · rw [if_neg hemp, if_pos hblk]
    rfl

/-- Witness for C4 (amended) at `https://facebook.com`. -/
theorem c4_witness :
    isBlockedAsync ("https://facebook.com".toList) = true ∧
      (scrapeWebsite webNone ("https://facebook.com".toList) 2).trace = [] :=
  c4_blocked_no_fetch_amended webNone ("https://facebook.com".toList) 2
    ⟨"facebook.com".toList, by decide, by decide⟩

/-- Claim C5: in both crawl variants, for every web/robots oracle,
start URL, depth bound and domain, the number of fetch attempts
recorded for that domain never exceeds `MAX_URLS_PER_DOMAIN`, which is
15; reaching the budget short-circuits before the fetch, so an enqueued
URL of an exhausted domain is never fetched. -/
theorem c5_domain_budget (web : Web) (robots : RobotsOracle) (url target : List Char)
    (maxD maxD2 : Nat) (d : List Char) :
    domCount (scrapeWebsite web url maxD).trace d ≤ maxUrlsPerDomain ∧
      domCount (fbScrape web robots maxD2 target).trace d ≤ maxUrlsPerDomain ∧
      maxUrlsPerDomain = 15 := by
  refine ⟨?_, ?_, rfl⟩
  · have h := budgetInv_scrapeWebsite web url maxD d
    omega
  · have hinit : FbBudgetInv ⟨[], [], [], []⟩ := by
      intro e
      constructor <;> simp [domCount, budgetOf, lookupB, maxUrlsPerDomain]
    have h := budgetInv_fbLevel web robots maxD2 0 ⟨[], [], [], []⟩ [target] hinit d
    have := h.1
    have := h.2
    rw [fbScrape]
    omega

/-- Claim C6, counterexample: the concurrent fetch path
(`scraper_async.py`) consults no robots.txt at all — even under an
oracle that disallows every URL for every agent, the session still
fetches the page. -/
theorem c6_counterexample :
    isAllowedByRobots robotsDeny ("https://x.co".toList) = false ∧
      (0, "https://x.co".toList) ∈ (scrapeWebsite webNone ("https://x.co".toList) 2).trace := by
  refine ⟨by decide, ?_⟩
  decide

/-- Claim C6 (amended): only the sequential fetch mode
(`get_emails_fb11.py`) consults robots.txt: there, a URL disallowed for
the configured user agent is never page-fetched, and failure to
retrieve robots.txt itself is fail-open (the URL is treated as
allowed).  The concurrent mode performs no robots check. -/
theorem c6_robots_amended (web : Web) (robots : RobotsOracle) (maxD : Nat)
    (url u : List Char) (h : robots (robotsUrlOf u) = none) :
    (∀ e ∈ (fbScrape web robots maxD url).trace, isAllowedByRobots robots e.2 = true) ∧
      isAllowedByRobots robots u = true := by
  constructor
  · refine robotsOk_fbLevel web robots maxD 0 ⟨[], [], [], []⟩ [url] ?_
    intro e he
    exact absurd he (by simp)
  · rw [isAllowedByRobots, h]

/-- Witness for C6 (amended) at a concrete session and URL. -/
theorem c6_witness :
    robotsOpen (robotsUrlOf ("https://q.co".toList)) = none ∧
      isAllowedByRobots robotsOpen ("https://a.co".toList) = true ∧
      isAllowedByRobots robotsOpen ("https://q.co".toList) = true := by
  have h := c6_robots_amended webX robotsOpen 2 ("https://a.co".toList)
    ("https://q.co".toList) rfl
  exact ⟨rfl, h.1 (0, "https://a.co".toList) (by decide), h.2⟩

/-- Claim C7: in both crawl variants every fetch attempt happens at a
frontier/recursion depth of at most `maxDepth`: link extraction stops
feeding the next frontier at the final level, so no URL discovered
beyond `maxDepth` is ever fetched. -/
theorem c7_depth_bound (web : Web) (robots : RobotsOracle) (url target : List Char)
    (maxD maxD2 : Nat) :
    (∀ e ∈ (scrapeWebsite web url maxD).trace, e.1 ≤ maxD) ∧
      (∀ e ∈ (fbScrape web robots maxD2 target).trace, e.1 ≤ maxD2) := by
  constructor
  · exact depthLe_scrapeWebsite web url maxD
  · refine depthLe_fbLevel web robots maxD2 maxD2 0 (by omega) ⟨[], [], [], []⟩ [target] ?_
    intro e he
    exact absurd he (by simp)

/-- Witness for C7 at a concrete two-page site crawled to depth 2. -/
theorem c7_witness :
    (1, "https://a.co/c".toList).1 ≤ 2 ∧ (0, "https://a.co".toList).1 ≤ 2 :=
  ⟨(c7_depth_bound webX robotsOpen ("a.co".toList) ("https://a.co".toList) 2 2).1
      (1, "https://a.co/c".toList) (by decide),
    (c7_depth_bound webX robotsOpen ("a.co".toList) ("https://a.co".toList) 2 2).2
      (0, "https://a.co".toList) (by decide)⟩

/-! ## The batch orchestrator (`scrape_multiple_websites`,
`scraper_async.py`)

`scrape_one` is embedded with the awaited result of
`scraper.scrape_website` as a parameter: `Outcome.ok` carries the
returned email set (as a list), `Outcome.exn` the message of an escaping
exception caught by the `except` clause.  `asyncio.gather` preserves
task order, so the flattening step is the concatenation in input
order. -/

/-- A cell that may be missing: `pd.isna(x)` true (`NaN`/`None`/non-str
inputs, which the code treats the same way as missing here) or a
string. -/
inductive StrOrNa where
  | na : StrOrNa
  | str : List Char → StrOrNa
deriving DecidableEq, Repr

/-- One input row handed to the orchestrator (a `CrawlTarget`): the
dict built by the worker from `Title`, `Website`, `Phone Number` and the
sheet name. -/
structure Target where
  company : List Char
  website : StrOrNa
  phone : PhoneVal
  city : List Char
deriving DecidableEq, Repr

/-- The awaited result of `scraper.scrape_website(website, max_depth=2)`
inside `scrape_one`'s `try`. -/
inductive Outcome where
  | ok : List (List Char) → Outcome
  | exn : List Char → Outcome
deriving DecidableEq, Repr

/-- One output row (an `EmailRecord`): the dict with keys
`Company`, `Website`, `Phone Number`, `Email`, `City`. -/
structure Rec where
  company : List Char
  website : List Char
  phone : List Char
  email : List Char
  city : List Char
deriving DecidableEq, Repr

/-- The row built for one discovered email. -/
def mkEmailRec (t : Target) (w e : List Char) : Rec :=
  ⟨t.company, w, formatPhone t.phone, e, t.city⟩

/-- `scrape_one(data)`: missing/empty website → one `No website
provided` row; blocked domain → one `Blocked domain` row; otherwise one
row per email in the session result, or one `No email found` row, or —
when the session raised — one `Error: <message truncated to 50>` row. -/
def scrapeOne (t : Target) (out : Outcome) : List Rec :=
  match t.website with
  | .na => [⟨t.company, "No website".toList, formatPhone t.phone,
      "No website provided".toList, t.city⟩]
  | .str w =>
    if w.isEmpty then
      [⟨t.company, "No website".toList, formatPhone t.phone,
        "No website provided".toList, t.city⟩]
    else if isBlockedAsync w then
      [⟨t.company, w, formatPhone t.phone, "Blocked domain".toList, t.city⟩]
    else
      match out with
      | .ok [] => [⟨t.company, w, formatPhone t.phone, "No email found".toList, t.city⟩]
      | .ok es => es.map (mkEmailRec t w)
      | .exn m => [⟨t.company, w, formatPhone t.phone,
          "Error: ".toList ++ m.take 50, t.city⟩]

/-- `scrape_multiple_websites`: every target is scraped by a fresh
session; the gathered per-target results (a dict or a list of dicts,
never an exception since `scrape_one` catches them) are flattened in
task order. -/
def scrapeMultiple (F : Target → Outcome) (ts : List Target) : List Rec :=
  (ts.map (fun t => scrapeOne t (F t))).flatten

/-- Sentinel email values of the output contract. -/
def sentinelEmail (e : List Char) : Prop :=
  e = "No website provided".toList ∨ e = "Blocked domain".toList ∨
    e = "No email found".toList ∨ ∃ m, e = "Error: ".toList ++ m

theorem sublist_flatten_of_mem {α : Type} {l : List (List α)} {x : List α} (h : x ∈ l) :
    List.Sublist x l.flatten := by
  induction l with
  | nil => exact absurd h (by simp)
  | cons y ys ih =>
    rw [List.flatten_cons]
    rcases List.mem_cons.mp h with rfl | h
    · exact List.sublist_append_left x ys.flatten |>.trans (List.Sublist.refl _)
    · exact (ih h).trans (List.sublist_append_right y ys.flatten)

/-- Claim C1: every `CrawlTarget` contributes at least one
`EmailRecord` to the orchestrator's result: one row per discovered email
when the session finds emails, otherwise exactly one placeholder row
whose Email is `No website provided`, `Blocked domain`, `No email
found`, or an `Error: ...` sentinel — and those rows appear (as a
contiguous block) in the flattened batch result. -/
theorem c1_target_yields_rows (F : Target → Outcome) (t : Target)
    (pre post : List Target) :
    scrapeOne t (F t) ≠ [] ∧
      ((∃ es, F t = .ok es ∧ es ≠ [] ∧ scrapeOne t (F t) =
          es.map (mkEmailRec t ((match t.website with | .na => [] | .str w => w)))) ∨
        (∃ r, scrapeOne t (F t) = [r] ∧ sentinelEmail r.email)) ∧
      List.Sublist (scrapeOne t (F t)) (scrapeMultiple F (pre ++ t :: post)) := by
  have hsub : List.Sublist (scrapeOne t (F t)) (scrapeMultiple F (pre ++ t :: post)) := by
    apply sublist_flatten_of_mem
    rw [List.map_append, List.map_cons]
    exact List.mem_append.mpr (Or.inr (List.mem_cons_self _ _))
  have hdisj : (∃ es, F t = .ok es ∧ es ≠ [] ∧ scrapeOne t (F t) =
      es.map (mkEmailRec t ((match t.website with | .na => [] | .str w => w)))) ∨
      (∃ r, scrapeOne t (F t) = [r] ∧ sentinelEmail r.email) := by
    obtain ⟨c, ws, ph, ci⟩ := t
    rcases ws with _ | w
    · exact Or.inr ⟨_, rfl, Or.inl rfl⟩
    · simp only [scrapeOne]
      split_ifs with hemp hblk
      · exact Or.inr ⟨_, rfl, Or.inl rfl⟩
      · exact Or.inr ⟨_, rfl, Or.inr (Or.inl rfl)⟩
      · rcases hF : F ⟨c, .str w, ph, ci⟩ with es | m
        · rcases es with _ | ⟨e, es'⟩
          · exact Or.inr ⟨_, rfl, Or.inr (Or.inr (Or.inl rfl))⟩
          · exact Or.inl ⟨e :: es', rfl, by simp, rfl⟩
        · exact Or.inr ⟨_, rfl, Or.inr (Or.inr (Or.inr ⟨m.take 50, rfl⟩))⟩
  have hne : scrapeOne t (F t) ≠ [] := by
    rcases hdisj with ⟨es, hF, hne, hrows⟩ | ⟨r, hrows, hsent⟩
    · rw [hrows]
      simpa using hne
    · rw [hrows]
      simp
  exact ⟨hne, hdisj, hsub⟩

/-- Claim C10: a missing phone (`pd.isna` true: `NaN`/`None`) is
formatted as the empty string, and every result row built for a target
with a missing phone carries an empty `Phone Number` field. -/
theorem c10_nan_phone (t : Target) (out : Outcome) (h : t.phone = .nan) :
    formatPhone .nan = [] ∧ ∀ r ∈ scrapeOne t out, r.phone = [] := by
  refine ⟨rfl, ?_⟩
  obtain ⟨c, ws, ph, ci⟩ := t
  have hph : ph = .nan := h
  subst hph
  intro r hr
  rcases ws with _ | w
  · simp only [scrapeOne, List.mem_singleton] at hr
    rw [hr]
    rfl
  · simp only [scrapeOne] at hr
    split_ifs at hr with hemp hblk
    · simp only [List.mem_singleton] at hr
      rw [hr]
      rfl
    · simp only [List.mem_singleton] at hr
      rw [hr]
      rfl
    · rcases out with es | m
      · rcases es with _ | ⟨e, es'⟩
        · simp only [List.mem_singleton] at hr
          rw [hr]
          rfl
        · obtain ⟨e2, he2, rfl⟩ := List.mem_map.mp hr
          rfl
      · simp only [List.mem_singleton] at hr
        rw [hr]
        rfl

/-- Witness for C10 at a concrete target. -/
theorem c10_witness :
    formatPhone .nan = [] ∧
      ∀ r ∈ scrapeOne ⟨"Acme".toList, .str ("https://a.co".toList), .nan, "C1".toList⟩
        (.ok ["x@a.co".toList]), r.phone = [] :=
  c10_nan_phone ⟨"Acme".toList, .str ("https://a.co".toList), .nan, "C1".toList⟩
    (.ok ["x@a.co".toList]) rfl

/-! ## The worker (`process_job_async`, `worker.py`)

The job store (`jobs.py`) is external state: the control field is
read by `get_job_control` at three sites — the per-sheet checkpoint,
the 2-second pause-polling loop, and the per-batch checkpoint.  The
model threads the sequence of values those successive reads return as a
list (`none` results below mean the schedule was exhausted mid-run — a
model artifact never hit by the finite schedules used here).  Status
writes (`update_job` with a `status` key) are recorded in order;
progress/`current_sheet`/count updates carry no claim content and are
not modelled.  Scraping is deterministic via the same outcome function
`F` as the orchestrator model. -/

/-- `JobStatus` (`jobs.py`). -/
inductive JStatus where
  | pending | processing | paused | stopped | completed | failed
deriving DecidableEq, Repr

/-- `JobControl` (`jobs.py`). -/
inductive JControl where
  | run | pause | stop
deriving DecidableEq, Repr

/-- One selected sheet: its name, whether it has the required
`Website`/`Title` columns, and the targets built from its rows. -/
structure Sheet where
  name : List Char
  hasCols : Bool
  rows : List Target
deriving DecidableEq, Repr

/-- Mutable worker state: status writes so far, `all_results`, and the
targets handed to `scrape_multiple_websites` so far. -/
structure WState where
  statuses : List JStatus
  results : List Rec
  scraped : List Target
deriving DecidableEq, Repr

/-- Observable outcome of a finished job: status writes, the output
artifact (name and rows) if one was written, whether `completed_at` was
set, and all targets ever scraped. -/
structure WOut where
  statuses : List JStatus
  output : Option (List Char × List Rec)
  completedAt : Bool
  scraped : List Target
deriving DecidableEq, Repr

/-- `range(0, len(websites_data), batch_size)` slicing with
`batch_size = 50`, fuelled by the list length. -/
def chunksGo {α : Type} : Nat → List α → List (List α)
  | 0, _ => []
  | _, [] => []
  | fuel + 1, x :: xs => (x :: xs).take 50 :: chunksGo fuel ((x :: xs).drop 50)

/-- The batches of 50 the worker processes per sheet. -/
def chunks50 {α : Type} (l : List α) : List (List α) :=
  chunksGo l.length l

/-- Stop handling: save the partial results (only when nonempty, per
`if all_results:`) under `partial_<filename>`, write status `stopped`
and a completion timestamp, and return. -/
def saveStop (fn : List Char) (w : WState) : WOut :=
  { statuses := w.statuses ++ [.stopped],
    output := if w.results.isEmpty then none
      else some ("partial_".toList ++ fn, w.results),
    completedAt := true,
    scraped := w.scraped }

/-- End of the sheet loop: nonempty results are saved under
`scraped_<filename>` with status `completed`; otherwise the job is
marked `failed` (`No results found`). -/
def finishJob (fn : List Char) (w : WState) : WOut :=
  if w.results.isEmpty then
    { statuses := w.statuses ++ [.failed], output := none,
      completedAt := true, scraped := w.scraped }
  else
    { statuses := w.statuses ++ [.completed],
      output := some ("scraped_".toList ++ fn, w.results),
      completedAt := true, scraped := w.scraped }

/-- The pause-polling loop (`while True: await asyncio.sleep(2); ...`):
each iteration reads the control value; `run` resumes (status
`processing` again), `stop` runs stop handling, `pause` keeps waiting. -/
def pauseWait (fn : List Char) (w : WState) :
    List JControl → Option ((WState × List JControl) ⊕ WOut)
  | [] => none
  | c :: ctrl =>
    match c with
    | .run => some (.inl ({ w with statuses := w.statuses ++ [.processing] }, ctrl))
    | .stop => some (.inr (saveStop fn w))
    | .pause => pauseWait fn w ctrl

/-- The per-sheet batch loop: before each batch the control is re-read
and `stop`/`pause` `break` out of the loop (the remaining batches of
this sheet are abandoned); otherwise the batch is scraped and its rows
appended to `all_results`. -/
def runBatches (F : Target → Outcome) :
    WState → List JControl → List (List Target) → Option (WState × List JControl)
  | w, ctrl, [] => some (w, ctrl)
  | _, [], _ :: _ => none
  | w, c :: ctrl2, b :: bs =>
    if c = .stop ∨ c = .pause then some (w, ctrl2)
    else runBatches F
      { w with results := w.results ++ scrapeMultiple F b,
               scraped := w.scraped ++ b } ctrl2 bs

/-- The sheet loop of `process_job_async`: at each sheet checkpoint the
control is read (`stop` → stop handling; `pause` → status `paused` and
the polling loop); a sheet missing the required columns is skipped;
otherwise its batches run, and the loop continues with the next sheet.
After the last sheet the results are saved (`finishJob`). -/
def runSheets (F : Target → Outcome) (fn : List Char) :
    WState → List JControl → List Sheet → Option WOut
  | w, _, [] => some (finishJob fn w)
  | _, [], _ :: _ => none
  | w, .stop :: _, _ :: _ => some (saveStop fn w)
  | w, .pause :: ctrl2, sh :: rest =>
    match pauseWait fn { w with statuses := w.statuses ++ [.paused] } ctrl2 with
    | none => none
    | some (.inr out) => some out
    | some (.inl (w2, ctrl3)) =>
      if sh.hasCols then
        match runBatches F w2 ctrl3 (chunks50 sh.rows) with
        | none => none
        | some (w3, ctrl4) => runSheets F fn w3 ctrl4 rest
      else runSheets F fn w2 ctrl3 rest
  | w, .run :: ctrl2, sh :: rest =>
    if sh.hasCols then
      match runBatches F w ctrl2 (chunks50 sh.rows) with
      | none => none
      | some (w3, ctrl4) => runSheets F fn w3 ctrl4 rest
    else runSheets F fn w ctrl2 rest

/-- `process_job_async(job_id)` for a readable job: status `processing`
is written first, then the sheet loop runs. -/
def processJob (F : Target → Outcome) (fn : List Char) (sheets : List Sheet)
    (ctrl : List JControl) : Option WOut :=
  runSheets F fn { statuses := [.processing], results := [], scraped := [] } ctrl sheets

/-- A 51-row sheet (two batches of 50 and 1) of targets with no
website: each yields exactly one placeholder row and needs no network. -/
def sheet51 : Sheet :=
  ⟨"S1".toList, true, List.replicate 51 ⟨"T".toList, .na, .nan, "S1".toList⟩⟩

/-- The outcome function for targets that are never fetched. -/
def F0 : Target → Outcome := fun _ => .ok []

example : (chunks50 (List.replicate 51 0)).map List.length = [50, 1] := by decide
example : processJob F0 ("j.xlsx".toList) [sheet51] [.run, .run, .run] =
    some { statuses := [.processing, .completed],
           output := some ("scraped_j.xlsx".toList,
             List.replicate 51 ⟨"T".toList, "No website".toList, [],
               "No website provided".toList, "S1".toList⟩),
           completedAt := true,
           scraped := List.replicate 51 ⟨"T".toList, .na, .nan, "S1".toList⟩ } := by decide

/-- Claim C2, failing evaluation: a single-sheet job of 51 rows whose
control reads `run` (sheet checkpoint), `run` (batch 1), `stop`
(batch 2 checkpoint).  The batch loop `break`s, the sheet loop ends,
and the final save runs: the job ends with status `completed` under the
final `scraped_` output name holding only the 50 rows of batch 1 —
status `stopped`, the `partial_` name, and the 51st row never appear. -/
theorem c2_stop_batch_checkpoint_bug :
    (processJob F0 ("j.xlsx".toList) [sheet51] [.run, .run, .stop]).map
        (fun o => (o.statuses, o.output.map (fun p => (p.1, p.2.length)), o.scraped.length)) =
      some ([.processing, .completed], some ("scraped_j.xlsx".toList, 50), 50) := by
  decide

/-- A second, two-row sheet used by the pause scenario. -/
def sheet2 : Sheet :=
  ⟨"S2".toList, true, List.replicate 2 ⟨"U".toList, .na, .nan, "S2".toList⟩⟩

/-- Claim C3, failing evaluation: a two-sheet job (51 + 2 rows).  With
control reads `run, run, pause (batch-2 checkpoint), pause (sheet-2
checkpoint), run (poll), run (batch)`, the worker does pause and
resume — but the `break` at the batch checkpoint abandoned the 51st
row of sheet 1, so it completes with 52 rows, while the uninterrupted
run (`run` at every read) completes with 53. -/
theorem c3_pause_resume_bug :
    (processJob F0 ("j.xlsx".toList) [sheet51, sheet2]
        [.run, .run, .pause, .pause, .run, .run]).map
        (fun o => (o.statuses, o.output.map (fun p => p.2.length))) =
      some ([.processing, .paused, .processing, .completed], some 52) ∧
      (processJob F0 ("j.xlsx".toList) [sheet51, sheet2]
        (List.replicate 5 .run)).map
        (fun o => o.output.map (fun p => p.2.length)) = some (some 53) := by
  constructor
  · decide
  · decide

end FbEmail
